import Mathlib

/-!
Shallow embedding of the fuzzy inference engine
(src/lab3/fuzzy_json_parser.py and src/lab3/fuzzy_inference_engine.py).

Python floats are modelled by exact rationals (ℚ); numpy arrays by lists;
Python dicts (insertion-ordered, the keys involved are unique) by
association lists with first-match lookup; exceptions by Option (none =
raised).  Every definition mirrors the corresponding Python function;
definitions whose doc comment starts with "Modelled from the spec"
instead follow the specification's words and exist only to be compared
with the code-derived definitions.
-/

namespace Fuzzy

/-- Minimum of a list of rationals; Python's min of a possibly empty
list is only taken behind an emptiness guard, the 0 default mirrors
the guard's 0.0 result. -/
def listMin : List ℚ → ℚ
  | [] => 0
  | x :: xs => xs.foldl min x

/-- Maximum of a list of rationals (np.max); 0 on the empty list. -/
def listMax : List ℚ → ℚ
  | [] => 0
  | x :: xs => xs.foldl max x

/-- np.mean: sum divided by length (ℚ division by zero is 0). -/
def listMean (l : List ℚ) : ℚ := l.sum / l.length

/-- np.cumsum with a running accumulator. -/
def cumsumFrom (acc : ℚ) : List ℚ → List ℚ
  | [] => []
  | x :: xs => (acc + x) :: cumsumFrom (acc + x) xs

/-- np.cumsum: inclusive prefix sums. -/
def cumsum (l : List ℚ) : List ℚ := cumsumFrom 0 l

/-- np.linspace(a, b, n): n evenly spaced points from a to b inclusive
(for n = 1 numpy returns [a]; here (n-1 : ℚ) = 0 makes the step term 0,
giving the same list). -/
def linspace (a b : ℚ) (n : ℕ) : List ℚ :=
  (List.range n).map (fun (i : ℕ) => a + (i : ℚ) * (b - a) / ((n : ℚ) - 1))

/-- Membership functions: TriangularMF / TrapezoidalMF
(fuzzy_json_parser.py). -/
inductive MF where
  | tri (a b c : ℚ)
  | trap (a b c d : ℚ)
deriving DecidableEq

/-- TriangularMF.__call__ / TrapezoidalMF.__call__: the elif chain and
the zero-denominator guards are transcribed branch for branch. -/
def MF.eval : MF → ℚ → ℚ
  | .tri a b c, x =>
    if x ≤ a ∨ x ≥ c then 0
    else if a < x ∧ x < b then (if b ≠ a then (x - a) / (b - a) else 0)
    else if b ≤ x ∧ x ≤ c then (if c ≠ b then (c - x) / (c - b) else 0)
    else 0
  | .trap a b c d, x =>
    if x ≤ a ∨ x ≥ d then 0
    else if a < x ∧ x < b then (if b ≠ a then (x - a) / (b - a) else 0)
    else if b ≤ x ∧ x ≤ c then 1
    else if c < x ∧ x < d then (if d ≠ c then (d - x) / (d - c) else 0)
    else 0

/-- The parameter list of a membership function
(_update_range_from_mf collects exactly these). -/
def MF.params : MF → List ℚ
  | .tri a b c => [a, b, c]
  | .trap a b c d => [a, b, c, d]

/-- Well-formedness of parameters (the data-model invariant a ≤ b ≤ c,
resp. a ≤ b ≤ c ≤ d). -/
def MF.wf : MF → Prop
  | .tri a b c => a ≤ b ∧ b ≤ c
  | .trap a b c d => a ≤ b ∧ b ≤ c ∧ c ≤ d

instance : ∀ m : MF, Decidable m.wf := by
  intro m; cases m <;> simp only [MF.wf] <;> infer_instance

/-- FuzzySet: a named membership function. -/
structure FuzzySet where
  name : String
  mf : MF
deriving DecidableEq

/-- FuzzySet.membership. -/
def FuzzySet.membership (s : FuzzySet) (x : ℚ) : ℚ := s.mf.eval x

/-- FuzzyVariable: name, numeric range, term table (insertion order). -/
structure FuzzyVariable where
  name : String
  min_val : ℚ
  max_val : ℚ
  terms : List (String × FuzzySet)
deriving DecidableEq

/-- FuzzyVariable.add_term followed by _update_range_from_mf: store the
term, then widen [min_val, max_val] by the parameters.  The float('inf')
branch of the Python code only concerns variables built without a
declared range; every variable reaching the engine is built by
_parse_variable with a declared range, which this embedding models. -/
def FuzzyVariable.add_term (v : FuzzyVariable) (term_name : String) (mf : MF) :
    FuzzyVariable :=
  let pmin := listMin mf.params
  let pmax := listMax mf.params
  { v with
    terms := v.terms ++ [(term_name, ⟨term_name, mf⟩)]
    min_val := if pmin < v.min_val then pmin else v.min_val
    max_val := if pmax > v.max_val then pmax else v.max_val }

/-- JSONFuzzyModelParser._parse_variable: start from the declared range
and add each term in order. -/
def parseVariable (name : String) (mn mx : ℚ)
    (termDefs : List (String × MF)) : FuzzyVariable :=
  termDefs.foldl (fun v p => v.add_term p.1 p.2) ⟨name, mn, mx, []⟩

/-- FuzzyRule: AND-combined conditions (var, term) plus one consequent. -/
structure FuzzyRule where
  conditions : List (String × String)
  result_var : String
  result_term : String
deriving DecidableEq

/-- ImplicationType. -/
inductive ImplicationType where
  | mamdani
  | larsen
deriving DecidableEq

/-- AggregationType. -/
inductive AggregationType where
  | maxA
  | sumA
  | proborA
deriving DecidableEq

/-- CompositionType. -/
inductive CompositionType where
  | max_min
  | max_prod
deriving DecidableEq

/-- FuzzyInferenceEngine's fields (the Python attribute "variables" is
spelled vars here: "variables" is a reserved word in Lean 4). -/
structure FuzzyInferenceEngine where
  rules : List FuzzyRule
  vars : List (String × FuzzyVariable)
  condition_resolution : ℕ
deriving DecidableEq

/-- FuzzyInferenceEngine.__init__: clamps condition_resolution to ≥ 51. -/
def mkEngine (rules : List FuzzyRule) (vars : List (String × FuzzyVariable))
    (condition_resolution : ℕ := 201) : FuzzyInferenceEngine :=
  ⟨rules, vars, max 51 condition_resolution⟩

/-- FuzzyInferenceEngine._implication. -/
def implicationOp (a b : ℚ) : ImplicationType → ℚ
  | .mamdani => min a b
  | .larsen => a * b

/-- FuzzyInferenceEngine._aggregate (scalar form). -/
def aggregateScalar (values : List ℚ) (agg : AggregationType) : ℚ :=
  match values with
  | [] => 0
  | v :: vs =>
    match agg with
    | .maxA => listMax (v :: vs)
    | .sumA => min 1 ((v :: vs).sum)
    | .proborA => min 1 (vs.foldl (fun r w => r + w - r * w) v)

/-- FuzzyInferenceEngine._build_input_membership: the grid over the
variable's domain and the narrow triangular spike (fuzzified singleton)
around the crisp value.  Python's (max_val - min_val) or 1.0 takes 1.0
when the span is exactly 0. -/
def buildInputMembership (eng : FuzzyInferenceEngine) (v : FuzzyVariable)
    (value : ℚ) : List ℚ × List ℚ :=
  let x_range := linspace v.min_val v.max_val eng.condition_resolution
  let span := if v.max_val - v.min_val = 0 then 1 else v.max_val - v.min_val
  let half_width := span / (max (eng.condition_resolution / 2) 1 : ℕ)
  (x_range, x_range.map (fun x => max (1 - |x - value| / half_width) 0))

/-- The per-condition truth inside _evaluate_rule_conditions: the height
np.max(np.minimum(input_mf, term_membership)) of the intersection of the
fuzzified singleton with the term's curve over the condition grid. -/
def singletonTruth (eng : FuzzyInferenceEngine) (v : FuzzyVariable)
    (value : ℚ) (term : FuzzySet) : ℚ :=
  let p := buildInputMembership eng v value
  listMax (List.zipWith min p.2 (p.1.map term.mf.eval))

/-- The loop body of _evaluate_rule_conditions: none models the early
return 0.0 (input value missing or variable unknown); an unknown term
appends 0.0 and continues. -/
def condTruthList (eng : FuzzyInferenceEngine) (inputs : List (String × ℚ)) :
    List (String × String) → Option (List ℚ)
  | [] => some []
  | (var_name, term_name) :: rest =>
    match inputs.lookup var_name with
    | none => none
    | some value =>
      match eng.vars.lookup var_name with
      | none => none
      | some v =>
        match v.terms.lookup term_name with
        | none => (condTruthList eng inputs rest).map (fun l => 0 :: l)
        | some term =>
          (condTruthList eng inputs rest).map
            (fun l => singletonTruth eng v value term :: l)

/-- FuzzyInferenceEngine._evaluate_rule_conditions: 0.0 on the
short-circuit paths, otherwise the minimum of the per-condition truth
levels (0.0 for an empty condition list). -/
def evaluateRuleConditions (eng : FuzzyInferenceEngine) (rule : FuzzyRule)
    (inputs : List (String × ℚ)) : ℚ :=
  match condTruthList eng inputs rule.conditions with
  | none => 0
  | some levels => listMin levels

/-- The truth a single condition contributes when its lookups succeed
(0 otherwise); used to state what _evaluate_rule_conditions computes in
the fully-resolvable case. -/
def condTruth (eng : FuzzyInferenceEngine) (inputs : List (String × ℚ))
    (p : String × String) : ℚ :=
  match inputs.lookup p.1, eng.vars.lookup p.1 with
  | some value, some v =>
    match v.terms.lookup p.2 with
    | some term => singletonTruth eng v value term
    | none => 0
  | _, _ => 0

/-- Modelled from the spec (§4.2): "evaluate the term's membership
function at inputs[var]; the rule's truth level α is the minimum across
all conditions".  Exists only for comparison with
evaluateRuleConditions, which is the code's definition. -/
def specPointwiseRuleTruth (eng : FuzzyInferenceEngine) (rule : FuzzyRule)
    (inputs : List (String × ℚ)) : ℚ :=
  listMin (rule.conditions.map (fun p =>
    match inputs.lookup p.1, eng.vars.lookup p.1 with
    | some value, some v =>
      match v.terms.lookup p.2 with
      | some term => term.mf.eval value
      | none => 0
    | _, _ => 0))

/-- Pointwise aggregation of a rule's output curve into the running
output curve (the agg_type branches shared by both inference
mechanisms). -/
def aggCurve (output_mf rule_output : List ℚ) : AggregationType → List ℚ
  | .maxA => List.zipWith max output_mf rule_output
  | .sumA => List.zipWith (fun o r => min 1 (o + r)) output_mf rule_output
  | .proborA => List.zipWith (fun o r => min 1 (o + r - o * r)) output_mf rule_output

/-- One iteration of the rule loop of inference_truth_level. -/
def truthLevelStep (eng : FuzzyInferenceEngine) (inputs : List (String × ℚ))
    (output_var : String) (output_variable : FuzzyVariable)
    (impl : ImplicationType) (agg : AggregationType) (x_range : List ℚ)
    (output_mf : List ℚ) (rule : FuzzyRule) : List ℚ :=
  if rule.result_var ≠ output_var then output_mf
  else
    let truth_level := evaluateRuleConditions eng rule inputs
    if truth_level = 0 then output_mf
    else
      match output_variable.terms.lookup rule.result_term with
      | none => output_mf
      | some term =>
        let term_membership := x_range.map term.mf.eval
        let rule_output := term_membership.map (fun m => implicationOp truth_level m impl)
        aggCurve output_mf rule_output agg

/-- FuzzyInferenceEngine.inference_truth_level; none models the raised
ValueError for an unknown output variable. -/
def inferenceTruthLevel (eng : FuzzyInferenceEngine) (inputs : List (String × ℚ))
    (output_var : String) (impl : ImplicationType) (agg : AggregationType)
    (resolution : ℕ) : Option (List ℚ × List ℚ) :=
  match eng.vars.lookup output_var with
  | none => none
  | some output_variable =>
    let x_range := linspace output_variable.min_val output_variable.max_val resolution
    let init := List.replicate resolution (0 : ℚ)
    some (eng.rules.foldl
      (truthLevelStep eng inputs output_var output_variable impl agg x_range)
      init, x_range)

/-- One iteration of the rule loop of inference_composition: the
fuzzy_relation selected by impl_type, then the rule_output selected by
comp_type (max_min ⇒ pointwise min with α, max_prod ⇒ pointwise α·). -/
def compositionStep (eng : FuzzyInferenceEngine) (inputs : List (String × ℚ))
    (output_var : String) (output_variable : FuzzyVariable)
    (comp : CompositionType) (impl : ImplicationType) (agg : AggregationType)
    (x_range : List ℚ) (output_mf : List ℚ) (rule : FuzzyRule) : List ℚ :=
  if rule.result_var ≠ output_var then output_mf
  else
    let truth_level := evaluateRuleConditions eng rule inputs
    if truth_level = 0 then output_mf
    else
      match output_variable.terms.lookup rule.result_term with
      | none => output_mf
      | some term =>
        let term_membership := x_range.map term.mf.eval
        let fuzzy_relation :=
          match impl with
          | .mamdani => term_membership.map (fun m => min truth_level m)
          | .larsen => term_membership.map (fun m => truth_level * m)
        let rule_output :=
          match comp with
          | .max_min =>
            match impl with
            | .mamdani => fuzzy_relation
            | .larsen => term_membership.map (fun m => min truth_level m)
          | .max_prod =>
            match impl with
            | .larsen => fuzzy_relation
            | .mamdani => term_membership.map (fun m => truth_level * m)
        aggCurve output_mf rule_output agg

/-- FuzzyInferenceEngine.inference_composition; none models the raised
ValueError for an unknown output variable. -/
def inferenceComposition (eng : FuzzyInferenceEngine) (inputs : List (String × ℚ))
    (output_var : String) (comp : CompositionType) (impl : ImplicationType)
    (agg : AggregationType) (resolution : ℕ) : Option (List ℚ × List ℚ) :=
  match eng.vars.lookup output_var with
  | none => none
  | some output_variable =>
    let x_range := linspace output_variable.min_val output_variable.max_val resolution
    let init := List.replicate resolution (0 : ℚ)
    some (eng.rules.foldl
      (compositionStep eng inputs output_var output_variable comp impl agg x_range)
      init, x_range)

/-- Modelled from the spec (§4.5-B): per rule, the full relational
composition B'(y) = max over x of combine(A'(x), R(x,y)) with
R(x,y) = implication(μ_A(x), μ_B(y)) over the condition grid × output
grid, A' the fuzzified singleton of the crisp input.  Exists only for
comparison with inferenceComposition, which is the code's definition. -/
def specRelationalRuleOutput (eng : FuzzyInferenceEngine) (v : FuzzyVariable)
    (value : ℚ) (mfA mfB : MF) (combine : ℚ → ℚ → ℚ) (impl : ImplicationType)
    (output_variable : FuzzyVariable) (resolution : ℕ) : List ℚ :=
  let p := buildInputMembership eng v value
  let ys := linspace output_variable.min_val output_variable.max_val resolution
  ys.map (fun y =>
    listMax (List.zipWith
      (fun a x => combine a (implicationOp (mfA.eval x) (mfB.eval y) impl))
      p.2 p.1))

/-- np.searchsorted with side left on a sorted array: the count of
elements strictly below the probe, i.e. the first index whose element
is ≥ the probe. -/
def searchsortedLeft (l : List ℚ) (v : ℚ) : ℕ := l.countP (fun c => c < v)

/-- FuzzyInferenceEngine.defuzzify_centroid. -/
def defuzzifyCentroid (membership x_range : List ℚ) : ℚ :=
  if membership.sum = 0 then listMean x_range
  else (List.zipWith (fun x m => x * m) x_range membership).sum / membership.sum

/-- FuzzyInferenceEngine.defuzzify_bisector. -/
def defuzzifyBisector (membership x_range : List ℚ) : ℚ :=
  let total_area := membership.sum
  if total_area = 0 then listMean x_range
  else
    let cumulative := cumsum membership
    let idx := searchsortedLeft cumulative (total_area / 2)
    let idx := if idx ≥ x_range.length then x_range.length - 1 else idx
    x_range.getD idx 0

/-- FuzzyInferenceEngine.defuzzify_mom: mean of the x values attaining
the maximal membership. -/
def defuzzifyMom (membership x_range : List ℚ) : ℚ :=
  let max_val := listMax membership
  if max_val = 0 then listMean x_range
  else
    listMean ((List.zip x_range membership).filterMap
      (fun p => if p.2 = max_val then some p.1 else none))

/-!
The end-to-end demonstration model of the spec (§8): variable amount on
[0,6] with low = Triangular(0,0,3) and high = Triangular(3,6,6); output
variable power on [0,100] with full = Triangular(0,50,100); the single
rule IF amount = high THEN power = full.
-/

/-- The input variable amount, built by the parser embedding. -/
def amountVar : FuzzyVariable :=
  parseVariable "amount" 0 6 [("low", .tri 0 0 3), ("high", .tri 3 6 6)]

/-- The output variable power. -/
def powerVar : FuzzyVariable :=
  parseVariable "power" 0 100 [("full", .tri 0 50 100)]

/-- IF amount = high THEN power = full. -/
def demoRule : FuzzyRule := ⟨[("amount", "high")], "power", "full"⟩

/-- The demonstration engine (condition_resolution 51, the clamp's
minimum). -/
def demoEngine : FuzzyInferenceEngine :=
  mkEngine [demoRule] [("amount", amountVar), ("power", powerVar)] 51

/-- The demonstration engine with the default condition_resolution
(201). -/
def demoEngineDefault : FuzzyInferenceEngine :=
  mkEngine [demoRule] [("amount", amountVar), ("power", powerVar)]

/-- Well-formedness of a variable table: every term's membership
function has ordered parameters (the data-model invariant). -/
def varsWF (vars : List (String × FuzzyVariable)) : Prop :=
  ∀ vp ∈ vars, ∀ tp ∈ vp.2.terms, tp.2.mf.wf

instance (vars : List (String × FuzzyVariable)) : Decidable (varsWF vars) := by
  unfold varsWF; infer_instance

/-- Well-formedness of a whole engine. -/
def engWF (eng : FuzzyInferenceEngine) : Prop := varsWF eng.vars

instance (eng : FuzzyInferenceEngine) : Decidable (engWF eng) := by
  unfold engWF; infer_instance

/-! Generic lemmas about the list helpers. -/

lemma foldl_min_le_init (x : ℚ) (xs : List ℚ) : xs.foldl min x ≤ x := by
  induction xs generalizing x with
  | nil => exact le_refl x
  | cons y ys ih => exact le_trans (ih (min x y)) (min_le_left x y)

lemma foldl_min_le_mem {q : ℚ} (x : ℚ) {xs : List ℚ} (hq : q ∈ xs) :
    xs.foldl min x ≤ q := by
  induction xs generalizing x with
  | nil => cases hq
  | cons y ys ih =>
    rcases List.mem_cons.mp hq with h | h
    · subst h
      exact le_trans (foldl_min_le_init (min x q) ys) (min_le_right x q)
    · exact ih (min x y) h

lemma le_foldl_min {c x : ℚ} {xs : List ℚ} (hx : c ≤ x)
    (h : ∀ q ∈ xs, c ≤ q) : c ≤ xs.foldl min x := by
  induction xs generalizing x with
  | nil => exact hx
  | cons y ys ih =>
    exact ih (le_min hx (h y (List.mem_cons_self y ys)))
      (fun q hq => h q (List.mem_cons_of_mem y hq))

lemma init_le_foldl_max (x : ℚ) (xs : List ℚ) : x ≤ xs.foldl max x := by
  induction xs generalizing x with
  | nil => exact le_refl x
  | cons y ys ih => exact le_trans (le_max_left x y) (ih (max x y))

lemma mem_le_foldl_max {q : ℚ} (x : ℚ) {xs : List ℚ} (hq : q ∈ xs) :
    q ≤ xs.foldl max x := by
  induction xs generalizing x with
  | nil => cases hq
  | cons y ys ih =>
    rcases List.mem_cons.mp hq with h | h
    · subst h
      exact le_trans (le_max_right x q) (init_le_foldl_max (max x q) ys)
    · exact ih (max x y) h

lemma foldl_max_le {c x : ℚ} {xs : List ℚ} (hx : x ≤ c)
    (h : ∀ q ∈ xs, q ≤ c) : xs.foldl max x ≤ c := by
  induction xs generalizing x with
  | nil => exact hx
  | cons y ys ih =>
    exact ih (max_le hx (h y (List.mem_cons_self y ys)))
      (fun q hq => h q (List.mem_cons_of_mem y hq))

lemma listMin_le {q : ℚ} {l : List ℚ} (hq : q ∈ l) : listMin l ≤ q := by
  cases l with
  | nil => cases hq
  | cons x xs =>
    rcases List.mem_cons.mp hq with h | h
    · subst h; exact foldl_min_le_init q xs
    · exact foldl_min_le_mem x h

lemma le_listMin {c : ℚ} {l : List ℚ} (hne : l ≠ [])
    (h : ∀ q ∈ l, c ≤ q) : c ≤ listMin l := by
  cases l with
  | nil => exact absurd rfl hne
  | cons x xs =>
    exact le_foldl_min (h x (List.mem_cons_self x xs))
      (fun q hq => h q (List.mem_cons_of_mem x hq))

lemma le_listMax {q : ℚ} {l : List ℚ} (hq : q ∈ l) : q ≤ listMax l := by
  cases l with
  | nil => cases hq
  | cons x xs =>
    rcases List.mem_cons.mp hq with h | h
    · subst h; exact init_le_foldl_max q xs
    · exact mem_le_foldl_max x h

lemma listMax_le {c : ℚ} {l : List ℚ} (h0 : 0 ≤ c)
    (h : ∀ q ∈ l, q ≤ c) : listMax l ≤ c := by
  cases l with
  | nil => exact h0
  | cons x xs =>
    exact foldl_max_le (h x (List.mem_cons_self x xs))
      (fun q hq => h q (List.mem_cons_of_mem x hq))

lemma listMax_nonneg {l : List ℚ} (h : ∀ q ∈ l, 0 ≤ q) : 0 ≤ listMax l := by
  cases l with
  | nil => exact le_refl 0
  | cons x xs =>
    exact le_trans (h x (List.mem_cons_self x xs)) (le_listMax (List.mem_cons_self x xs))

lemma listMin_eq_zero {l : List ℚ} (h0 : (0 : ℚ) ∈ l)
    (h : ∀ q ∈ l, 0 ≤ q) : listMin l = 0 :=
  le_antisymm (listMin_le h0) (le_listMin (List.ne_nil_of_mem h0) h)

lemma lookup_mem {β : Type} {l : List (String × β)} {k : String} {v : β}
    (h : l.lookup k = some v) : (k, v) ∈ l := by
  induction l with
  | nil => simp [List.lookup] at h
  | cons p t ih =>
    rw [List.lookup] at h
    cases hk : (k == p.1) with
    | true =>
      simp only [hk] at h
      cases h
      have hkp : k = p.1 := eq_of_beq hk
      subst hkp
      exact List.mem_cons_self p t
    | false =>
      simp only [hk] at h
      exact List.mem_cons_of_mem p (ih h)

/-! Bounds on membership-function evaluation. -/

lemma mf_eval_nonneg {m : MF} (hwf : m.wf) (x : ℚ) : 0 ≤ m.eval x := by
  cases m with
  | tri a b c =>
    obtain ⟨hab, hbc⟩ := hwf
    simp only [MF.eval]
    split_ifs with h1 h2 h3 h4 h5
    · exact le_refl 0
    · exact div_nonneg (by linarith [h2.1]) (by linarith [h2.1, h2.2])
    · exact le_refl 0
    · have hbc' : b < c := lt_of_le_of_ne hbc (fun h => h5 h.symm)
      exact div_nonneg (by linarith [h4.2]) (by linarith)
    · exact le_refl 0
    · exact le_refl 0
  | trap a b c d =>
    obtain ⟨hab, hbc, hcd⟩ := hwf
    simp only [MF.eval]
    split_ifs with h1 h2 h3 h4 h5 h6
    · exact le_refl 0
    · exact div_nonneg (by linarith [h2.1]) (by linarith [h2.1, h2.2])
    · exact le_refl 0
    · exact zero_le_one
    · have hcd' : c < d := lt_of_le_of_ne hcd (fun h => h6 h.symm)
      exact div_nonneg (by linarith [h5.2]) (by linarith)
    · exact le_refl 0
    · exact le_refl 0

lemma mf_eval_le_one {m : MF} (hwf : m.wf) (x : ℚ) : m.eval x ≤ 1 := by
  cases m with
  | tri a b c =>
    obtain ⟨hab, hbc⟩ := hwf
    simp only [MF.eval]
    split_ifs with h1 h2 h3 h4 h5
    · exact zero_le_one
    · rw [div_le_one (by linarith [h2.1, h2.2])]
      linarith [h2.2]
    · exact zero_le_one
    · have hbc' : b < c := lt_of_le_of_ne hbc (fun h => h5 h.symm)
      rw [div_le_one (by linarith)]
      linarith [h4.1]
    · exact zero_le_one
    · exact zero_le_one
  | trap a b c d =>
    obtain ⟨hab, hbc, hcd⟩ := hwf
    simp only [MF.eval]
    split_ifs with h1 h2 h3 h4 h5 h6
    · exact zero_le_one
    · rw [div_le_one (by linarith [h2.1, h2.2])]
      linarith [h2.2]
    · exact zero_le_one
    · exact le_refl 1
    · have hcd' : c < d := lt_of_le_of_ne hcd (fun h => h6 h.symm)
      rw [div_le_one (by linarith)]
      linarith [h5.1]
    · exact zero_le_one
    · exact zero_le_one

/-- When every condition's input value and variable resolve, the loop of
_evaluate_rule_conditions returns exactly the per-condition truths in
order. -/
lemma condTruthList_eq_map (eng : FuzzyInferenceEngine)
    (inputs : List (String × ℚ)) (conds : List (String × String))
    (h : ∀ p ∈ conds, (inputs.lookup p.1).isSome ∧ (eng.vars.lookup p.1).isSome) :
    condTruthList eng inputs conds = some (conds.map (condTruth eng inputs)) := by
  induction conds with
  | nil => rfl
  | cons p rest ih =>
    obtain ⟨h1, h2⟩ := h p (List.mem_cons_self p rest)
    obtain ⟨value, hv⟩ := Option.isSome_iff_exists.mp h1
    obtain ⟨v, hvar⟩ := Option.isSome_iff_exists.mp h2
    have ihr := ih (fun q hq => h q (List.mem_cons_of_mem p hq))
    cases p with
    | mk vn tn =>
      simp only [condTruthList, List.map_cons, condTruth, hv, hvar] at ihr ⊢
      cases htl : v.terms.lookup tn <;> simp [htl, ihr]

/-- C4: for every Triangular membership function with a ≤ b ≤ c and every
Trapezoidal one with a ≤ b ≤ c ≤ d, evaluation at any point lands in
[0, 1], and a degenerate shoulder (a = b or b = c, resp. a = b or c = d)
behaves as an immediate step to 0 on that side — the active branch's
zero-denominator guard returns 0 instead of dividing. -/
theorem C4_mf_eval_in_unit_interval :
    (∀ m : MF, m.wf → ∀ x : ℚ, 0 ≤ m.eval x ∧ m.eval x ≤ 1) ∧
    (∀ a c x : ℚ, x ≤ a → (MF.tri a a c).eval x = 0) ∧
    (∀ a b x : ℚ, b ≤ x → (MF.tri a b b).eval x = 0) ∧
    (∀ a c d x : ℚ, x ≤ a → (MF.trap a a c d).eval x = 0) ∧
    (∀ a b c x : ℚ, c ≤ x → (MF.trap a b c c).eval x = 0) := by
  refine ⟨fun m hwf x => ⟨mf_eval_nonneg hwf x, mf_eval_le_one hwf x⟩,
    fun a c x hx => ?_, fun a b x hx => ?_, fun a c d x hx => ?_,
    fun a b c x hx => ?_⟩
  · simp only [MF.eval]
    rw [if_pos (Or.inl hx)]
  · simp only [MF.eval]
    rw [if_pos (Or.inr hx)]
  · simp only [MF.eval]
    rw [if_pos (Or.inl hx)]
  · simp only [MF.eval]
    rw [if_pos (Or.inr hx)]

/-- Witness for C4 at the concrete shapes Triangular(0,1,2) (well-formed)
and x = 1/2, plus a degenerate step at Triangular(0,0,3). -/
theorem C4_mf_eval_in_unit_interval_witness :
    (MF.tri 0 1 2).wf ∧
    (0 ≤ (MF.tri 0 1 2).eval (1/2) ∧ (MF.tri 0 1 2).eval (1/2) ≤ 1) ∧
    ((0:ℚ) ≤ 0 ∧ (MF.tri 0 0 3).eval 0 = 0) :=
  ⟨by decide, C4_mf_eval_in_unit_interval.1 (MF.tri 0 1 2) (by decide) (1/2),
    le_refl 0, C4_mf_eval_in_unit_interval.2.1 0 3 0 (le_refl 0)⟩

/-- C10: a degenerate triangular membership function (a = b or b = c,
with a < c) never attains the peak value 1; in particular
Triangular(3,6,6) evaluates to 0 at x = 6. -/
theorem C10_degenerate_tri_below_one :
    (∀ a b c x : ℚ, (a = b ∨ b = c) → a < c → (MF.tri a b c).eval x < 1) ∧
    (MF.tri 3 6 6).eval 6 = 0 := by
  constructor
  · intro a b c x hdeg hac
    simp only [MF.eval]
    split_ifs with h1 h2 h3 h4 h5
    · exact zero_lt_one
    · rw [div_lt_one (by linarith [h2.1, h2.2])]
      linarith [h2.2]
    · exact zero_lt_one
    · rcases hdeg with h | h
      · subst h
        push_neg at h1
        have hax : a < x := h1.1
        rw [div_lt_one (by linarith [h4.2, hax])]
        linarith
      · exact absurd h.symm h5
    · exact zero_lt_one
    · exact zero_lt_one
  · decide

/-- Witness for C10 at Triangular(3,6,6) (degenerate: b = c) and
x = 9/2. -/
theorem C10_degenerate_tri_below_one_witness :
    ((3:ℚ) = 6 ∨ (6:ℚ) = 6) ∧ (3:ℚ) < 6 ∧ (MF.tri 3 6 6).eval (9/2) < 1 :=
  ⟨Or.inr rfl, by norm_num,
    C10_degenerate_tri_below_one.1 3 6 6 (9/2) (Or.inr rfl) (by norm_num)⟩

/-- C8: each inference mechanism fails (returns none, the model of the
raised ValueError — no output curve is produced at all) exactly when the
requested output variable is unknown to the variable table; for a known
output variable neither fails. -/
theorem C8_unknown_output_fails (eng : FuzzyInferenceEngine)
    (inputs : List (String × ℚ)) (output_var : String) (comp : CompositionType)
    (impl : ImplicationType) (agg : AggregationType) (resolution : ℕ) :
    (inferenceTruthLevel eng inputs output_var impl agg resolution = none ↔
      eng.vars.lookup output_var = none) ∧
    (inferenceComposition eng inputs output_var comp impl agg resolution = none ↔
      eng.vars.lookup output_var = none) := by
  unfold inferenceTruthLevel inferenceComposition
  cases eng.vars.lookup output_var <;> simp

/-- C2 (amended): when every condition's variable is present in the
inputs and known to the variable table, the rule's truth level is the
minimum over all conditions of the height of the intersection of the
fuzzified-singleton input with the term's membership curve over the
condition grid (0 for an unknown term) — not the term's membership
function evaluated exactly at inputs[var]. -/
theorem C2_truth_is_singleton_intersection (eng : FuzzyInferenceEngine)
    (rule : FuzzyRule) (inputs : List (String × ℚ))
    (h : ∀ p ∈ rule.conditions,
      (inputs.lookup p.1).isSome ∧ (eng.vars.lookup p.1).isSome) :
    evaluateRuleConditions eng rule inputs =
      listMin (rule.conditions.map (condTruth eng inputs)) := by
  unfold evaluateRuleConditions
  rw [condTruthList_eq_map eng inputs rule.conditions h]

set_option maxRecDepth 100000 in
unseal Rat.add Rat.mul Rat.inv Rat.sub in
/-- Counterexample to C2 as stated: for the demonstration engine and
input amount = 6, the rule's truth level (1/2) differs from the minimum
over conditions of the term's membership evaluated exactly at
inputs[var] (which is 0, because Triangular(3,6,6) evaluates to 0 at 6). -/
theorem C2_counterexample :
    evaluateRuleConditions demoEngine demoRule [("amount", 6)] ≠
      specPointwiseRuleTruth demoEngine demoRule [("amount", 6)] := by
  decide

set_option maxRecDepth 100000 in
unseal Rat.add Rat.mul Rat.inv Rat.sub in
/-- Witness for C2 at the demonstration engine, rule and input
amount = 6 (the single condition's input value and variable both
resolve). -/
theorem C2_truth_is_singleton_intersection_witness :
    (([(("amount" : String), (6:ℚ))].lookup "amount").isSome ∧
      (demoEngine.vars.lookup "amount").isSome) ∧
    evaluateRuleConditions demoEngine demoRule [("amount", 6)] =
      listMin (demoRule.conditions.map (condTruth demoEngine [("amount", 6)])) :=
  ⟨⟨by decide, by decide⟩,
    C2_truth_is_singleton_intersection demoEngine demoRule [("amount", 6)]
      (by decide)⟩

set_option maxRecDepth 100000 in
unseal Rat.add Rat.mul Rat.inv Rat.sub in
/-- Counterexample to C3 as stated: in the end-to-end model, input
amount = 6 does not yield rule truth level 1. -/
theorem C3_counterexample :
    evaluateRuleConditions demoEngine demoRule [("amount", 6)] ≠ 1 := by
  decide

set_option maxRecDepth 100000 in
unseal Rat.add Rat.mul Rat.inv Rat.sub in
/-- C3 (amended): in the end-to-end model, input amount = 6 yields rule
truth level 1/2 (Triangular(3,6,6) evaluates to 0 at its degenerate peak
and the fuzzified-singleton intersection tops out at 1/2 on the grid),
the Mamdani truth-level mechanism clips the full curve at alpha = 1/2,
and defuzzify_centroid of the clipped (still symmetric) curve is exactly
50. -/
theorem C3_end_to_end :
    evaluateRuleConditions demoEngine demoRule [("amount", 6)] = 1/2 ∧
    (inferenceTruthLevel demoEngine [("amount", 6)] "power" .mamdani .maxA 101).map
        Prod.fst =
      some ((linspace 0 100 101).map (fun y => min (1/2) ((MF.tri 0 50 100).eval y))) ∧
    (inferenceTruthLevel demoEngine [("amount", 6)] "power" .mamdani .maxA 101).map
        (fun p => defuzzifyCentroid p.1 p.2) = some 50 := by
  decide

/-! Lemmas about the short-circuit behaviour of rule-truth evaluation. -/

lemma zipWith_min_nonneg {l1 l2 : List ℚ} (h1 : ∀ q ∈ l1, 0 ≤ q)
    (h2 : ∀ q ∈ l2, 0 ≤ q) : ∀ q ∈ List.zipWith min l1 l2, 0 ≤ q := by
  induction l1 generalizing l2 with
  | nil => intro q hq; simp at hq
  | cons x xs ih =>
    cases l2 with
    | nil => intro q hq; simp at hq
    | cons y ys =>
      intro q hq
      rcases List.mem_cons.mp hq with h | h
      · subst h
        exact le_min (h1 x (List.mem_cons_self x xs)) (h2 y (List.mem_cons_self y ys))
      · exact ih (fun r hr => h1 r (List.mem_cons_of_mem x hr))
          (fun r hr => h2 r (List.mem_cons_of_mem y hr)) q h

lemma spike_entries_nonneg (eng : FuzzyInferenceEngine) (v : FuzzyVariable)
    (value : ℚ) : ∀ q ∈ (buildInputMembership eng v value).2, 0 ≤ q := by
  intro q hq
  simp only [buildInputMembership, List.mem_map] at hq
  obtain ⟨x, _, hx⟩ := hq
  rw [← hx]
  exact le_max_right _ 0

lemma singletonTruth_nonneg (eng : FuzzyInferenceEngine) (v : FuzzyVariable)
    (value : ℚ) (term : FuzzySet) (hwf : term.mf.wf) :
    0 ≤ singletonTruth eng v value term := by
  simp only [singletonTruth]
  apply listMax_nonneg
  apply zipWith_min_nonneg (spike_entries_nonneg eng v value)
  intro q hq
  simp only [List.mem_map] at hq
  obtain ⟨x, _, hx⟩ := hq
  rw [← hx]
  exact mf_eval_nonneg hwf x

lemma condTruthList_entries_nonneg {eng : FuzzyInferenceEngine}
    (hwf : engWF eng) (inputs : List (String × ℚ)) :
    ∀ (conds : List (String × String)) (l : List ℚ),
      condTruthList eng inputs conds = some l → ∀ q ∈ l, 0 ≤ q := by
  intro conds
  induction conds with
  | nil =>
    intro l hl q hq
    simp only [condTruthList, Option.some.injEq] at hl
    subst hl
    cases hq
  | cons c rest ih =>
    obtain ⟨vn, tn⟩ := c
    intro l hl q hq
    simp only [condTruthList] at hl
    cases hin : inputs.lookup vn with
    | none => simp [hin] at hl
    | some value =>
      cases hvar : eng.vars.lookup vn with
      | none => simp [hin, hvar] at hl
      | some v =>
        cases htl : v.terms.lookup tn with
        | none =>
          cases hrec : condTruthList eng inputs rest with
          | none => simp [hin, hvar, htl, hrec] at hl
          | some lr =>
            simp only [hin, hvar, htl, hrec, Option.map, Option.some.injEq] at hl
            subst hl
            rcases List.mem_cons.mp hq with h | h
            · subst h; exact le_refl 0
            · exact ih lr hrec q h
        | some term =>
          cases hrec : condTruthList eng inputs rest with
          | none => simp [hin, hvar, htl, hrec] at hl
          | some lr =>
            simp only [hin, hvar, htl, hrec, Option.map, Option.some.injEq] at hl
            subst hl
            rcases List.mem_cons.mp hq with h | h
            · subst h
              exact singletonTruth_nonneg eng v value term
                (hwf (vn, v) (lookup_mem hvar) (tn, term) (lookup_mem htl))
            · exact ih lr hrec q h

lemma condTruthList_of_bad (eng : FuzzyInferenceEngine)
    (inputs : List (String × ℚ)) (p : String × String) :
    ∀ conds : List (String × String), p ∈ conds →
      (inputs.lookup p.1 = none ∨ eng.vars.lookup p.1 = none ∨
        ∃ v, eng.vars.lookup p.1 = some v ∧ v.terms.lookup p.2 = none) →
      condTruthList eng inputs conds = none ∨
        ∃ l, condTruthList eng inputs conds = some l ∧ (0:ℚ) ∈ l := by
  intro conds
  induction conds with
  | nil => intro hp; cases hp
  | cons c rest ih =>
    obtain ⟨vn, tn⟩ := c
    intro hp hbad
    rcases List.mem_cons.mp hp with hpq | hpr
    · subst hpq
      cases hin : inputs.lookup vn with
      | none => left; simp [condTruthList, hin]
      | some value =>
        rcases hbad with h | h | ⟨v, hv, htn⟩
        · exact absurd h (by simp [hin])
        · left; simp [condTruthList, hin, h]
        · cases hrec : condTruthList eng inputs rest with
          | none => left; simp [condTruthList, hin, hv, htn, hrec]
          | some lr =>
            right
            exact ⟨0 :: lr, by simp [condTruthList, hin, hv, htn, hrec],
              List.mem_cons_self 0 lr⟩
    · cases hin : inputs.lookup vn with
      | none => left; simp [condTruthList, hin]
      | some value =>
        cases hvar : eng.vars.lookup vn with
        | none => left; simp [condTruthList, hin, hvar]
        | some v =>
          rcases ih hpr hbad with hrec | ⟨lr, hrec, h0⟩
          · left
            cases htl : v.terms.lookup tn <;>
              simp [condTruthList, hin, hvar, htl, hrec]
          · right
            cases htl : v.terms.lookup tn with
            | none =>
              exact ⟨0 :: lr, by simp [condTruthList, hin, hvar, htl, hrec],
                List.mem_cons_self 0 lr⟩
            | some term =>
              exact ⟨singletonTruth eng v value term :: lr,
                by simp [condTruthList, hin, hvar, htl, hrec],
                List.mem_cons_of_mem _ h0⟩

lemma evalRuleConditions_zero_of_bad {eng : FuzzyInferenceEngine}
    (hwf : engWF eng) {rule : FuzzyRule} {inputs : List (String × ℚ)}
    {p : String × String} (hp : p ∈ rule.conditions)
    (hbad : inputs.lookup p.1 = none ∨ eng.vars.lookup p.1 = none ∨
      ∃ v, eng.vars.lookup p.1 = some v ∧ v.terms.lookup p.2 = none) :
    evaluateRuleConditions eng rule inputs = 0 := by
  unfold evaluateRuleConditions
  rcases condTruthList_of_bad eng inputs p rule.conditions hp hbad with h | ⟨l, hl, h0⟩
  · rw [h]
  · rw [hl]
    exact listMin_eq_zero h0
      (condTruthList_entries_nonneg hwf inputs rule.conditions l hl)

lemma truthLevelStep_of_zero {eng : FuzzyInferenceEngine}
    {inputs : List (String × ℚ)} {rule : FuzzyRule}
    (hz : evaluateRuleConditions eng rule inputs = 0) (output_var : String)
    (output_variable : FuzzyVariable) (impl : ImplicationType)
    (agg : AggregationType) (x_range output_mf : List ℚ) :
    truthLevelStep eng inputs output_var output_variable impl agg x_range
      output_mf rule = output_mf := by
  simp only [truthLevelStep, hz]
  split_ifs <;> rfl

lemma compositionStep_of_zero {eng : FuzzyInferenceEngine}
    {inputs : List (String × ℚ)} {rule : FuzzyRule}
    (hz : evaluateRuleConditions eng rule inputs = 0) (output_var : String)
    (output_variable : FuzzyVariable) (comp : CompositionType)
    (impl : ImplicationType) (agg : AggregationType)
    (x_range output_mf : List ℚ) :
    compositionStep eng inputs output_var output_variable comp impl agg x_range
      output_mf rule = output_mf := by
  simp only [compositionStep, hz]
  split_ifs <;> rfl

lemma condTruthList_engine_congr (r₁ r₂ : List FuzzyRule)
    (vars : List (String × FuzzyVariable)) (cr : ℕ)
    (inputs : List (String × ℚ)) :
    ∀ conds, condTruthList ⟨r₁, vars, cr⟩ inputs conds =
      condTruthList ⟨r₂, vars, cr⟩ inputs conds := by
  intro conds
  induction conds with
  | nil => rfl
  | cons c rest ih =>
    obtain ⟨vn, tn⟩ := c
    simp only [condTruthList]
    cases inputs.lookup vn with
    | none => rfl
    | some value =>
      cases vars.lookup vn with
      | none => rfl
      | some v =>
        cases v.terms.lookup tn <;> rw [ih] <;> rfl

lemma evalRuleConditions_engine_congr (r₁ r₂ : List FuzzyRule)
    (vars : List (String × FuzzyVariable)) (cr : ℕ) (rule : FuzzyRule)
    (inputs : List (String × ℚ)) :
    evaluateRuleConditions ⟨r₁, vars, cr⟩ rule inputs =
      evaluateRuleConditions ⟨r₂, vars, cr⟩ rule inputs := by
  unfold evaluateRuleConditions
  rw [condTruthList_engine_congr r₁ r₂]

lemma truthLevelStep_engine_congr (r₁ r₂ : List FuzzyRule)
    (vars : List (String × FuzzyVariable)) (cr : ℕ)
    (inputs : List (String × ℚ)) (output_var : String)
    (output_variable : FuzzyVariable) (impl : ImplicationType)
    (agg : AggregationType) (x_range output_mf : List ℚ) (rule : FuzzyRule) :
    truthLevelStep ⟨r₁, vars, cr⟩ inputs output_var output_variable impl agg
      x_range output_mf rule =
    truthLevelStep ⟨r₂, vars, cr⟩ inputs output_var output_variable impl agg
      x_range output_mf rule := by
  unfold truthLevelStep
  rw [evalRuleConditions_engine_congr r₁ r₂]

lemma compositionStep_engine_congr (r₁ r₂ : List FuzzyRule)
    (vars : List (String × FuzzyVariable)) (cr : ℕ)
    (inputs : List (String × ℚ)) (output_var : String)
    (output_variable : FuzzyVariable) (comp : CompositionType)
    (impl : ImplicationType) (agg : AggregationType)
    (x_range output_mf : List ℚ) (rule : FuzzyRule) :
    compositionStep ⟨r₁, vars, cr⟩ inputs output_var output_variable comp impl
      agg x_range output_mf rule =
    compositionStep ⟨r₂, vars, cr⟩ inputs output_var output_variable comp impl
      agg x_range output_mf rule := by
  unfold compositionStep
  rw [evalRuleConditions_engine_congr r₁ r₂]

/-- C5: a rule with a condition whose variable is absent from the
inputs, or whose variable or term is unknown to the (well-formed)
variable table, gets truth level 0 (evaluation is total — no exception),
and both inference mechanisms skip it: its loop step leaves the running
output curve unchanged, and removing the rule from the engine's rule
list leaves both mechanisms' results unchanged. -/
theorem C5_bad_condition_rule_skipped
    (vars : List (String × FuzzyVariable)) (cr : ℕ) (hwf : varsWF vars)
    (rule : FuzzyRule) (inputs : List (String × ℚ)) (p : String × String)
    (hp : p ∈ rule.conditions)
    (hbad : inputs.lookup p.1 = none ∨ vars.lookup p.1 = none ∨
      ∃ v, vars.lookup p.1 = some v ∧ v.terms.lookup p.2 = none)
    (rs₁ rs₂ : List FuzzyRule) (output_var : String)
    (output_variable : FuzzyVariable) (impl : ImplicationType)
    (agg : AggregationType) (comp : CompositionType)
    (x_range output_mf : List ℚ) (resolution : ℕ) :
    evaluateRuleConditions ⟨rs₁ ++ rule :: rs₂, vars, cr⟩ rule inputs = 0 ∧
    truthLevelStep ⟨rs₁ ++ rule :: rs₂, vars, cr⟩ inputs output_var
      output_variable impl agg x_range output_mf rule = output_mf ∧
    compositionStep ⟨rs₁ ++ rule :: rs₂, vars, cr⟩ inputs output_var
      output_variable comp impl agg x_range output_mf rule = output_mf ∧
    inferenceTruthLevel ⟨rs₁ ++ rule :: rs₂, vars, cr⟩ inputs output_var impl
        agg resolution =
      inferenceTruthLevel ⟨rs₁ ++ rs₂, vars, cr⟩ inputs output_var impl agg
        resolution ∧
    inferenceComposition ⟨rs₁ ++ rule :: rs₂, vars, cr⟩ inputs output_var comp
        impl agg resolution =
      inferenceComposition ⟨rs₁ ++ rs₂, vars, cr⟩ inputs output_var comp impl
        agg resolution := by
  have hz : evaluateRuleConditions ⟨rs₁ ++ rule :: rs₂, vars, cr⟩ rule inputs = 0 :=
    @evalRuleConditions_zero_of_bad ⟨rs₁ ++ rule :: rs₂, vars, cr⟩ hwf rule
      inputs p hp hbad
  have hz2 : evaluateRuleConditions ⟨rs₁ ++ rs₂, vars, cr⟩ rule inputs = 0 := by
    rw [← evalRuleConditions_engine_congr (rs₁ ++ rule :: rs₂) (rs₁ ++ rs₂)
      vars cr rule inputs]
    exact hz
  refine ⟨hz, truthLevelStep_of_zero hz _ _ _ _ _ _,
    compositionStep_of_zero hz _ _ _ _ _ _ _, ?_, ?_⟩
  · cases h : vars.lookup output_var with
    | none => simp [inferenceTruthLevel, h]
    | some outV =>
      simp only [inferenceTruthLevel, h]
      have hstep :
          truthLevelStep (⟨rs₁ ++ rule :: rs₂, vars, cr⟩ : FuzzyInferenceEngine)
            inputs output_var outV impl agg
            (linspace outV.min_val outV.max_val resolution) =
          truthLevelStep ⟨rs₁ ++ rs₂, vars, cr⟩ inputs output_var outV impl agg
            (linspace outV.min_val outV.max_val resolution) :=
        funext fun acc => funext fun r =>
          truthLevelStep_engine_congr _ _ vars cr inputs output_var outV impl
            agg _ acc r
      rw [hstep, List.foldl_append, List.foldl_append, List.foldl_cons,
        truthLevelStep_of_zero hz2]
  · cases h : vars.lookup output_var with
    | none => simp [inferenceComposition, h]
    | some outV =>
      simp only [inferenceComposition, h]
      have hstep :
          compositionStep (⟨rs₁ ++ rule :: rs₂, vars, cr⟩ : FuzzyInferenceEngine)
            inputs output_var outV comp impl agg
            (linspace outV.min_val outV.max_val resolution) =
          compositionStep ⟨rs₁ ++ rs₂, vars, cr⟩ inputs output_var outV comp
            impl agg (linspace outV.min_val outV.max_val resolution) :=
        funext fun acc => funext fun r =>
          compositionStep_engine_congr _ _ vars cr inputs output_var outV comp
            impl agg _ acc r
      rw [hstep, List.foldl_append, List.foldl_append, List.foldl_cons,
        compositionStep_of_zero hz2]

/-- Witness for C5: a rule whose condition variable "missing" is absent
from the inputs, inside the demonstration variable table. -/
theorem C5_bad_condition_rule_skipped_witness :
    varsWF [("amount", amountVar), ("power", powerVar)] ∧
    (("missing", "high") : String × String) ∈
      (⟨[("missing", "high")], "power", "full"⟩ : FuzzyRule).conditions ∧
    ([(("amount" : String), (6:ℚ))].lookup "missing" = none) ∧
    evaluateRuleConditions
      ⟨[] ++ (⟨[("missing", "high")], "power", "full"⟩ : FuzzyRule) :: [],
        [("amount", amountVar), ("power", powerVar)], 51⟩
      ⟨[("missing", "high")], "power", "full"⟩ [("amount", 6)] = 0 :=
  ⟨by decide, by decide, by decide,
    (C5_bad_condition_rule_skipped [("amount", amountVar), ("power", powerVar)]
      51 (by decide) ⟨[("missing", "high")], "power", "full"⟩ [("amount", 6)]
      ("missing", "high") (by decide) (Or.inl (by decide)) [] [] "power"
      powerVar .mamdani .maxA .max_min [] [] 2).1⟩

/-! Lemmas for the aggregation cap. -/

lemma mem_zipWith_min_one_le {g : ℚ → ℚ → ℚ} :
    ∀ (l1 l2 : List ℚ), ∀ q ∈ List.zipWith (fun o r => min 1 (g o r)) l1 l2,
      q ≤ 1 := by
  intro l1
  induction l1 with
  | nil => intro l2 q hq; simp at hq
  | cons x xs ih =>
    intro l2 q hq
    cases l2 with
    | nil => simp at hq
    | cons y ys =>
      rcases List.mem_cons.mp hq with h | h
      · subst h; exact min_le_left 1 _
      · exact ih ys q h

lemma aggCurve_le_one (o r : List ℚ) {agg : AggregationType}
    (hagg : agg = .sumA ∨ agg = .proborA) : ∀ q ∈ aggCurve o r agg, q ≤ 1 := by
  rcases hagg with h | h <;> subst h <;> exact mem_zipWith_min_one_le o r

lemma foldl_inv {α β : Type} (P : β → Prop) (step : β → α → β)
    (hstep : ∀ b a, P b → P (step b a)) :
    ∀ (l : List α) (init : β), P init → P (l.foldl step init) := by
  intro l
  induction l with
  | nil => intro init h; exact h
  | cons a as ih => intro init h; exact ih (step init a) (hstep init a h)

lemma truthLevelStep_le_one {eng : FuzzyInferenceEngine}
    {inputs : List (String × ℚ)} {output_var : String}
    {output_variable : FuzzyVariable} {impl : ImplicationType}
    {agg : AggregationType} (hagg : agg = .sumA ∨ agg = .proborA)
    (x_range : List ℚ) (output_mf : List ℚ) (rule : FuzzyRule)
    (hacc : ∀ q ∈ output_mf, q ≤ 1) :
    ∀ q ∈ truthLevelStep eng inputs output_var output_variable impl agg x_range
      output_mf rule, q ≤ 1 := by
  simp only [truthLevelStep]
  split_ifs with h1 h2
  · exact hacc
  · exact hacc
  · cases h : output_variable.terms.lookup rule.result_term with
    | none => exact hacc
    | some term => exact aggCurve_le_one _ _ hagg

lemma compositionStep_le_one {eng : FuzzyInferenceEngine}
    {inputs : List (String × ℚ)} {output_var : String}
    {output_variable : FuzzyVariable} {comp : CompositionType}
    {impl : ImplicationType} {agg : AggregationType}
    (hagg : agg = .sumA ∨ agg = .proborA) (x_range : List ℚ)
    (output_mf : List ℚ) (rule : FuzzyRule) (hacc : ∀ q ∈ output_mf, q ≤ 1) :
    ∀ q ∈ compositionStep eng inputs output_var output_variable comp impl agg
      x_range output_mf rule, q ≤ 1 := by
  simp only [compositionStep]
  split_ifs with h1 h2
  · exact hacc
  · exact hacc
  · cases h : output_variable.terms.lookup rule.result_term with
    | none => exact hacc
    | some term => exact aggCurve_le_one _ _ hagg

/-- C7: SUM aggregation (min(1, Σ)) and PROBOR aggregation (folded
a + b − a·b, capped at 1) never exceed 1 — in the scalar aggregation
function, and pointwise in the output curves of both inference
mechanisms. -/
theorem C7_sum_probor_capped (values : List ℚ)
    (hv : ∀ w ∈ values, 0 ≤ w ∧ w ≤ 1) (eng : FuzzyInferenceEngine)
    (inputs : List (String × ℚ)) (output_var : String)
    (impl : ImplicationType) (comp : CompositionType) {agg : AggregationType}
    (hagg : agg = .sumA ∨ agg = .proborA) (resolution : ℕ) :
    aggregateScalar values .sumA ≤ 1 ∧ aggregateScalar values .proborA ≤ 1 ∧
    (∀ pr ∈ inferenceTruthLevel eng inputs output_var impl agg resolution,
      ∀ q ∈ pr.1, q ≤ 1) ∧
    (∀ pr ∈ inferenceComposition eng inputs output_var comp impl agg resolution,
      ∀ q ∈ pr.1, q ≤ 1) := by
  refine ⟨?_, ?_, ?_, ?_⟩
  · cases values with
    | nil => exact zero_le_one
    | cons w ws => exact min_le_left 1 _
  · cases values with
    | nil => exact zero_le_one
    | cons w ws => exact min_le_left 1 _
  · intro pr hpr q hq
    cases h : eng.vars.lookup output_var with
    | none => simp [inferenceTruthLevel, h] at hpr
    | some outV =>
      simp only [inferenceTruthLevel, h, Option.mem_def, Option.some.injEq] at hpr
      subst hpr
      refine foldl_inv (fun l => ∀ q ∈ l, q ≤ 1) _ ?_ eng.rules _ ?_ q hq
      · intro b a hb
        exact truthLevelStep_le_one hagg _ b a hb
      · intro q hq
        rw [List.eq_of_mem_replicate hq]
        exact zero_le_one
  · intro pr hpr q hq
    cases h : eng.vars.lookup output_var with
    | none => simp [inferenceComposition, h] at hpr
    | some outV =>
      simp only [inferenceComposition, h, Option.mem_def, Option.some.injEq] at hpr
      subst hpr
      refine foldl_inv (fun l => ∀ q ∈ l, q ≤ 1) _ ?_ eng.rules _ ?_ q hq
      · intro b a hb
        exact compositionStep_le_one hagg _ b a hb
      · intro q hq
        rw [List.eq_of_mem_replicate hq]
        exact zero_le_one

/-- Witness for C7 at the value list [1/2, 3/4] and the demonstration
engine with SUM aggregation. -/
theorem C7_sum_probor_capped_witness :
    ((0 ≤ (1:ℚ)/2 ∧ (1:ℚ)/2 ≤ 1) ∧ (0 ≤ (3:ℚ)/4 ∧ (3:ℚ)/4 ≤ 1)) ∧
    aggregateScalar [1/2, 3/4] .sumA ≤ 1 ∧
    aggregateScalar [1/2, 3/4] .proborA ≤ 1 :=
  ⟨⟨⟨by norm_num, by norm_num⟩, ⟨by norm_num, by norm_num⟩⟩,
    (C7_sum_probor_capped [1/2, 3/4] (by
        intro w hw
        rcases List.mem_cons.mp hw with h | h
        · subst h; norm_num
        · rcases List.mem_cons.mp h with h2 | h2
          · subst h2; norm_num
          · cases h2)
      demoEngine [("amount", 6)] "power" .mamdani .max_min (Or.inl rfl) 3).1,
    (C7_sum_probor_capped [1/2, 3/4] (by
        intro w hw
        rcases List.mem_cons.mp hw with h | h
        · subst h; norm_num
        · rcases List.mem_cons.mp h with h2 | h2
          · subst h2; norm_num
          · cases h2)
      demoEngine [("amount", 6)] "power" .mamdani .max_min (Or.inl rfl) 3).2.1⟩

/-! Lemmas about cumulative sums and the bisector index. -/

lemma cumsumFrom_length : ∀ (l : List ℚ) (acc : ℚ),
    (cumsumFrom acc l).length = l.length := by
  intro l
  induction l with
  | nil => intro acc; rfl
  | cons x xs ih => intro acc; simp [cumsumFrom, ih]

lemma le_cumsumFrom : ∀ (l : List ℚ), (∀ q ∈ l, 0 ≤ q) →
    ∀ (acc : ℚ), ∀ b ∈ cumsumFrom acc l, acc ≤ b := by
  intro l
  induction l with
  | nil => intro _ acc b hb; cases hb
  | cons x xs ih =>
    intro hpos acc b hb
    have hx : 0 ≤ x := hpos x (List.mem_cons_self x xs)
    rcases List.mem_cons.mp hb with h | h
    · subst h; linarith
    · have := ih (fun q hq => hpos q (List.mem_cons_of_mem x hq)) (acc + x) b h
      linarith

lemma cumsumFrom_sorted : ∀ (l : List ℚ), (∀ q ∈ l, 0 ≤ q) →
    ∀ (acc : ℚ), List.Sorted (· ≤ ·) (cumsumFrom acc l) := by
  intro l
  induction l with
  | nil => intro _ acc; exact List.sorted_nil
  | cons x xs ih =>
    intro hpos acc
    rw [cumsumFrom, List.sorted_cons]
    exact ⟨le_cumsumFrom xs (fun q hq => hpos q (List.mem_cons_of_mem x hq))
      (acc + x), ih (fun q hq => hpos q (List.mem_cons_of_mem x hq)) (acc + x)⟩

lemma sum_mem_cumsumFrom : ∀ (l : List ℚ), l ≠ [] →
    ∀ (acc : ℚ), acc + l.sum ∈ cumsumFrom acc l := by
  intro l
  induction l with
  | nil => intro h; exact absurd rfl h
  | cons x xs ih =>
    intro _ acc
    cases xs with
    | nil => simp [cumsumFrom]
    | cons y ys =>
      have hm := ih (by simp) (acc + x)
      rw [cumsumFrom]
      refine List.mem_cons_of_mem _ ?_
      have : acc + (x :: y :: ys).sum = acc + x + (y :: ys).sum := by
        simp [List.sum_cons]; ring
      rw [this]
      exact hm

lemma sorted_searchsorted_ge (v : ℚ) :
    ∀ c : List ℚ, List.Sorted (· ≤ ·) c →
      searchsortedLeft c v < c.length → v ≤ c.getD (searchsortedLeft c v) 0 := by
  intro c
  induction c with
  | nil => intro _ h; simp [searchsortedLeft] at h
  | cons a as ih =>
    intro hsort hlt
    obtain ⟨ha, has⟩ := List.sorted_cons.mp hsort
    by_cases hav : a < v
    · have hc : searchsortedLeft (a :: as) v = searchsortedLeft as v + 1 := by
        simp [searchsortedLeft, List.countP_cons, hav]
      rw [hc]
      rw [hc] at hlt
      simp only [List.getD_cons_succ]
      exact ih has (by simpa using hlt)
    · have hc : searchsortedLeft (a :: as) v = 0 := by
        have hz : searchsortedLeft as v = 0 := by
          simp only [searchsortedLeft, List.countP_eq_zero]
          intro b hb
          simp only [decide_eq_true_eq]
          exact not_lt.mpr (le_trans (not_lt.mp hav) (ha b hb))
        simp [searchsortedLeft, List.countP_cons, hav] at hz ⊢
        simpa [searchsortedLeft] using hz
      rw [hc]
      simp only [List.getD_cons_zero]
      exact not_lt.mp hav

lemma sorted_searchsorted_lt (v : ℚ) :
    ∀ c : List ℚ, List.Sorted (· ≤ ·) c →
      ∀ j < searchsortedLeft c v, c.getD j 0 < v := by
  intro c
  induction c with
  | nil => intro _ j hj; simp [searchsortedLeft] at hj
  | cons a as ih =>
    intro hsort j hj
    obtain ⟨ha, has⟩ := List.sorted_cons.mp hsort
    by_cases hav : a < v
    · have hc : searchsortedLeft (a :: as) v = searchsortedLeft as v + 1 := by
        simp [searchsortedLeft, List.countP_cons, hav]
      rw [hc] at hj
      cases j with
      | zero => simpa using hav
      | succ k =>
        simp only [List.getD_cons_succ]
        exact ih has k (by omega)
    · have hc : searchsortedLeft (a :: as) v = 0 := by
        have : ∀ b ∈ a :: as, ¬ b < v := by
          intro b hb
          rcases List.mem_cons.mp hb with h | h
          · subst h; exact hav
          · exact not_lt.mpr (le_trans (not_lt.mp hav) (ha b h))
        simp only [searchsortedLeft, List.countP_eq_zero]
        intro b hb
        simp only [decide_eq_true_eq]
        exact this b hb
      rw [hc] at hj
      omega

lemma listMax_of_all_zero {l : List ℚ} (h : ∀ q ∈ l, q = 0) : listMax l = 0 := by
  cases l with
  | nil => rfl
  | cons x xs =>
    refine le_antisymm (listMax_le (le_refl 0) (fun q hq => le_of_eq (h q hq))) ?_
    rw [← h x (List.mem_cons_self x xs)]
    exact le_listMax (List.mem_cons_self x xs)

/-- C6: on an all-zero membership curve all three defuzzification
methods fall back to the mean of the x grid; on a curve with non-zero
mass, centroid is Σxᵢμᵢ/Σμᵢ, bisector returns the x at the smallest
index whose cumulative sum reaches half the total, and mean-of-maximum
is the mean of the x values attaining the maximal membership. -/
theorem C6_defuzzify_guards (membership x_range : List ℚ)
    (hlen : membership.length = x_range.length) (hpos : 0 < membership.length)
    (hnn : ∀ m ∈ membership, 0 ≤ m) :
    ((∀ m ∈ membership, m = 0) →
      defuzzifyCentroid membership x_range = listMean x_range ∧
      defuzzifyBisector membership x_range = listMean x_range ∧
      defuzzifyMom membership x_range = listMean x_range) ∧
    (membership.sum ≠ 0 →
      defuzzifyCentroid membership x_range =
        (List.zipWith (fun x m => x * m) x_range membership).sum /
          membership.sum) ∧
    (membership.sum ≠ 0 →
      ∃ idx, idx < x_range.length ∧
        defuzzifyBisector membership x_range = x_range.getD idx 0 ∧
        membership.sum / 2 ≤ (cumsum membership).getD idx 0 ∧
        ∀ j < idx, (cumsum membership).getD j 0 < membership.sum / 2) ∧
    (listMax membership ≠ 0 →
      defuzzifyMom membership x_range =
        listMean ((List.zip x_range membership).filterMap
          (fun p => if p.2 = listMax membership then some p.1 else none))) := by
  refine ⟨fun hz => ?_, fun hs => ?_, fun hs => ?_, fun hm => ?_⟩
  · have sum0 : membership.sum = 0 := List.sum_eq_zero hz
    have max0 : listMax membership = 0 := listMax_of_all_zero hz
    refine ⟨?_, ?_, ?_⟩
    · simp [defuzzifyCentroid, sum0]
    · simp [defuzzifyBisector, sum0]
    · simp [defuzzifyMom, max0]
  · simp [defuzzifyCentroid, hs]
  · have htot : 0 < membership.sum :=
      lt_of_le_of_ne (List.sum_nonneg hnn) (Ne.symm hs)
    have hne : membership ≠ [] := List.length_pos.mp hpos
    have hsort : List.Sorted (· ≤ ·) (cumsum membership) :=
      cumsumFrom_sorted membership hnn 0
    have hmem : membership.sum ∈ cumsum membership := by
      have := sum_mem_cumsumFrom membership hne 0
      simpa [cumsum] using this
    have hclen : (cumsum membership).length = membership.length :=
      cumsumFrom_length membership 0
    have hidx : searchsortedLeft (cumsum membership) (membership.sum / 2) <
        (cumsum membership).length := by
      rcases lt_or_eq_of_le (List.countP_le_length
        (fun c => decide (c < membership.sum / 2)) (l := cumsum membership)) with h | h
      · exact h
      · exfalso
        have hall := List.countP_eq_length.mp h
        have := hall _ hmem
        simp only [decide_eq_true_eq] at this
        linarith
    have hidx2 : searchsortedLeft (cumsum membership) (membership.sum / 2) <
        x_range.length := by
      rw [hclen, hlen] at hidx
      exact hidx
    refine ⟨searchsortedLeft (cumsum membership) (membership.sum / 2), hidx2,
      ?_, ?_, ?_⟩
    · simp only [defuzzifyBisector]
      rw [if_neg hs, if_neg (not_le.mpr hidx2)]
    · exact sorted_searchsorted_ge (membership.sum / 2) (cumsum membership)
        hsort hidx
    · exact sorted_searchsorted_lt (membership.sum / 2) (cumsum membership) hsort
  · simp [defuzzifyMom, hm]

set_option maxRecDepth 10000 in
unseal Rat.add Rat.mul Rat.inv Rat.sub in
/-- Witness for C6 at membership [0, 1/2, 1/4] over the grid
[0, 5, 10]. -/
theorem C6_defuzzify_guards_witness :
    ([(0:ℚ), 1/2, 1/4].length = [(0:ℚ), 5, 10].length ∧
      0 < [(0:ℚ), 1/2, 1/4].length ∧ ([(0:ℚ), 1/2, 1/4]).sum ≠ 0) ∧
    defuzzifyCentroid [0, 1/2, 1/4] [0, 5, 10] =
      (List.zipWith (fun x m => x * m) [(0:ℚ), 5, 10] [0, 1/2, 1/4]).sum /
        ([(0:ℚ), 1/2, 1/4]).sum :=
  ⟨⟨rfl, by decide, by decide⟩,
    (C6_defuzzify_guards [0, 1/2, 1/4] [0, 5, 10] rfl (by decide)
      (by decide)).2.1 (by decide)⟩

/-! Lemmas about range widening in the parser. -/

lemma add_term_min (v : FuzzyVariable) (t : String) (mf : MF) :
    (v.add_term t mf).min_val = min v.min_val (listMin mf.params) := by
  simp only [FuzzyVariable.add_term]
  rcases lt_trichotomy (listMin mf.params) v.min_val with h | h | h
  · rw [if_pos h, min_eq_right (le_of_lt h)]
  · rw [if_neg (by rw [h]; exact lt_irrefl _), h, min_self]
  · rw [if_neg (not_lt.mpr (le_of_lt h)), min_eq_left (le_of_lt h)]

lemma add_term_max (v : FuzzyVariable) (t : String) (mf : MF) :
    (v.add_term t mf).max_val = max v.max_val (listMax mf.params) := by
  simp only [FuzzyVariable.add_term]
  rcases lt_trichotomy v.max_val (listMax mf.params) with h | h | h
  · rw [if_pos h, max_eq_right (le_of_lt h)]
  · rw [if_neg (by rw [h]; exact lt_irrefl _), ← h, max_self]
  · rw [if_neg (not_lt.mpr (le_of_lt h)), max_eq_left (le_of_lt h)]

lemma foldl_add_term_min :
    ∀ (termDefs : List (String × MF)) (v : FuzzyVariable),
      (termDefs.foldl (fun w p => w.add_term p.1 p.2) v).min_val =
        (termDefs.map (fun p => listMin p.2.params)).foldl min v.min_val := by
  intro termDefs
  induction termDefs with
  | nil => intro v; rfl
  | cons p rest ih =>
    intro v
    simp only [List.foldl_cons, List.map_cons]
    rw [ih, add_term_min]

lemma foldl_add_term_max :
    ∀ (termDefs : List (String × MF)) (v : FuzzyVariable),
      (termDefs.foldl (fun w p => w.add_term p.1 p.2) v).max_val =
        (termDefs.map (fun p => listMax p.2.params)).foldl max v.max_val := by
  intro termDefs
  induction termDefs with
  | nil => intro v; rfl
  | cons p rest ih =>
    intro v
    simp only [List.foldl_cons, List.map_cons]
    rw [ih, add_term_max]

lemma linspace_length (a b : ℚ) (n : ℕ) : (linspace a b n).length = n := by
  simp [linspace]

lemma linspace_first (a b : ℚ) {n : ℕ} (hn : 2 ≤ n) :
    (linspace a b n).getD 0 0 = a := by
  have h0 : 0 < (linspace a b n).length := by rw [linspace_length]; omega
  rw [List.getD_eq_getElem _ _ h0]
  simp [linspace]

lemma linspace_last (a b : ℚ) {n : ℕ} (hn : 2 ≤ n) :
    (linspace a b n).getD (n - 1) 0 = b := by
  have hlt : n - 1 < (linspace a b n).length := by rw [linspace_length]; omega
  rw [List.getD_eq_getElem _ _ hlt]
  simp only [linspace, List.getElem_map, List.getElem_range]
  have h1 : (1 : ℕ) ≤ n := by omega
  have hcast : ((n - 1 : ℕ) : ℚ) = (n : ℚ) - 1 := by
    push_cast [h1]
    ring
  rw [hcast]
  have hne : (n : ℚ) - 1 ≠ 0 := by
    have h2 : (2 : ℚ) ≤ (n : ℚ) := by exact_mod_cast hn
    linarith
  field_simp

/-- C9: parsing a variable starts from the declared range and widens it
by every term's parameters: the final [min_val, max_val] is the fold of
min/max of the parameter extremes over the declared range, so it
encloses the declared range and all parameters, and the engine's
equally-spaced grids start at min_val and end at max_val. -/
theorem C9_parse_widens_range (name : String) (mn mx : ℚ)
    (termDefs : List (String × MF)) :
    (parseVariable name mn mx termDefs).min_val =
      (termDefs.map (fun p => listMin p.2.params)).foldl min mn ∧
    (parseVariable name mn mx termDefs).max_val =
      (termDefs.map (fun p => listMax p.2.params)).foldl max mx ∧
    (parseVariable name mn mx termDefs).min_val ≤ mn ∧
    mx ≤ (parseVariable name mn mx termDefs).max_val ∧
    (∀ p ∈ termDefs, ∀ q ∈ p.2.params,
      (parseVariable name mn mx termDefs).min_val ≤ q ∧
      q ≤ (parseVariable name mn mx termDefs).max_val) ∧
    (∀ res : ℕ, 2 ≤ res →
      (linspace (parseVariable name mn mx termDefs).min_val
        (parseVariable name mn mx termDefs).max_val res).getD 0 0 =
        (parseVariable name mn mx termDefs).min_val ∧
      (linspace (parseVariable name mn mx termDefs).min_val
        (parseVariable name mn mx termDefs).max_val res).getD (res - 1) 0 =
        (parseVariable name mn mx termDefs).max_val) := by
  have hminf : (parseVariable name mn mx termDefs).min_val =
      (termDefs.map (fun p => listMin p.2.params)).foldl min mn :=
    foldl_add_term_min termDefs ⟨name, mn, mx, []⟩
  have hmaxf : (parseVariable name mn mx termDefs).max_val =
      (termDefs.map (fun p => listMax p.2.params)).foldl max mx :=
    foldl_add_term_max termDefs ⟨name, mn, mx, []⟩
  refine ⟨hminf, hmaxf, ?_, ?_, ?_, ?_⟩
  · rw [hminf]; exact foldl_min_le_init mn _
  · rw [hmaxf]; exact init_le_foldl_max mx _
  · intro p hp q hq
    constructor
    · rw [hminf]
      refine le_trans (foldl_min_le_mem mn ?_) (listMin_le hq)
      exact List.mem_map.mpr ⟨p, hp, rfl⟩
    · rw [hmaxf]
      refine le_trans (le_listMax hq) (mem_le_foldl_max mx ?_)
      exact List.mem_map.mpr ⟨p, hp, rfl⟩
  · intro res hres
    exact ⟨linspace_first _ _ hres, linspace_last _ _ hres⟩

/-- Witness for C9: variable "amount" declared on [0, 6] with terms
low = Triangular(0,0,3) and wide = Triangular(-2,3,8): the parsed range
widens to [-2, 8] and a 3-point grid runs from -2 to 8. -/
theorem C9_parse_widens_range_witness :
    (parseVariable "amount" 0 6 [("low", .tri 0 0 3), ("wide", .tri (-2) 3 8)]).min_val ≤ 0 ∧
    (6:ℚ) ≤ (parseVariable "amount" 0 6 [("low", .tri 0 0 3), ("wide", .tri (-2) 3 8)]).max_val ∧
    (2 ≤ 3 ∧
      (linspace (parseVariable "amount" 0 6 [("low", .tri 0 0 3), ("wide", .tri (-2) 3 8)]).min_val
        (parseVariable "amount" 0 6 [("low", .tri 0 0 3), ("wide", .tri (-2) 3 8)]).max_val 3).getD 0 0 =
        (parseVariable "amount" 0 6 [("low", .tri 0 0 3), ("wide", .tri (-2) 3 8)]).min_val) :=
  ⟨(C9_parse_widens_range "amount" 0 6
      [("low", .tri 0 0 3), ("wide", .tri (-2) 3 8)]).2.2.1,
    (C9_parse_widens_range "amount" 0 6
      [("low", .tri 0 0 3), ("wide", .tri (-2) 3 8)]).2.2.2.1,
    by norm_num,
    ((C9_parse_widens_range "amount" 0 6
      [("low", .tri 0 0 3), ("wide", .tri (-2) 3 8)]).2.2.2.2.2 3 (by norm_num)).1⟩

/-! Lemmas for the max-min composition factorisation. -/

lemma max_min_right (x y c : ℚ) : max (min x c) (min y c) = min (max x y) c := by
  rcases le_total x y with h | h
  · rw [max_eq_right (min_le_min h (le_refl c)), max_eq_right h]
  · rw [max_eq_left (min_le_min h (le_refl c)), max_eq_left h]

lemma foldl_max_map_min (c : ℚ) :
    ∀ (xs : List ℚ) (x : ℚ),
      (xs.map (fun e => min e c)).foldl max (min x c) =
        min (xs.foldl max x) c := by
  intro xs
  induction xs with
  | nil => intro x; rfl
  | cons y ys ih =>
    intro x
    simp only [List.map_cons, List.foldl_cons]
    rw [max_min_right, ih]

lemma listMax_map_min (c : ℚ) (l : List ℚ) (hne : l ≠ []) :
    listMax (l.map (fun e => min e c)) = min (listMax l) c := by
  cases l with
  | nil => exact absurd rfl hne
  | cons x xs =>
    simp only [List.map_cons, listMax]
    exact foldl_max_map_min c xs x

lemma zipWith_min_const (f : ℚ → ℚ) (c : ℚ) :
    ∀ (as xs : List ℚ),
      List.zipWith (fun a x => min a (min (f x) c)) as xs =
        (List.zipWith (fun a x => min a (f x)) as xs).map (fun e => min e c) := by
  intro as
  induction as with
  | nil => intro xs; rfl
  | cons a as2 ih =>
    intro xs
    cases xs with
    | nil => rfl
    | cons x xs2 =>
      simp only [List.zipWith_cons_cons, List.map_cons]
      rw [ih]
      congr 1
      rw [← min_assoc]

lemma zipWith_max_replicate_zero :
    ∀ (l : List ℚ) (n : ℕ), l.length = n → (∀ q ∈ l, 0 ≤ q) →
      List.zipWith max (List.replicate n (0:ℚ)) l = l := by
  intro l
  induction l with
  | nil => intro n _ _; simp
  | cons x xs ih =>
    intro n hn hpos
    cases n with
    | zero => simp at hn
    | succ m =>
      simp only [List.replicate_succ, List.zipWith_cons_cons]
      rw [max_eq_right (hpos x (List.mem_cons_self x xs)),
        ih m (by simpa using hn) (fun q hq => hpos q (List.mem_cons_of_mem x hq))]

lemma zipWith_ne_nil {f : ℚ → ℚ → ℚ} {l1 l2 : List ℚ} (h1 : l1 ≠ [])
    (h2 : l2 ≠ []) : List.zipWith f l1 l2 ≠ [] := by
  cases l1 with
  | nil => exact absurd rfl h1
  | cons x xs =>
    cases l2 with
    | nil => exact absurd rfl h2
    | cons y ys => simp

lemma buildInputMembership_fst_length (eng : FuzzyInferenceEngine)
    (v : FuzzyVariable) (value : ℚ) :
    (buildInputMembership eng v value).1.length = eng.condition_resolution := by
  simp only [buildInputMembership]
  exact linspace_length _ _ _

lemma buildInputMembership_snd_length (eng : FuzzyInferenceEngine)
    (v : FuzzyVariable) (value : ℚ) :
    (buildInputMembership eng v value).2.length = eng.condition_resolution := by
  simp only [buildInputMembership, List.length_map]
  exact linspace_length _ _ _

lemma singletonTruth_eq (eng : FuzzyInferenceEngine) (v : FuzzyVariable)
    (value : ℚ) (termA : FuzzySet) :
    singletonTruth eng v value termA =
      listMax (List.zipWith (fun a x => min a (termA.mf.eval x))
        (buildInputMembership eng v value).2 (buildInputMembership eng v value).1) := by
  simp only [singletonTruth]
  rw [List.zipWith_map_right]

/-- The heart of the max-min composition equivalence: composing the
fuzzified singleton with the Mamdani relation min(μ_A(x), c) and
maximising over the grid factors into min of the singleton-intersection
truth with c. -/
lemma relational_minmax_point (eng : FuzzyInferenceEngine) (v : FuzzyVariable)
    (value : ℚ) (termA : FuzzySet) (c : ℚ)
    (hcr : 0 < eng.condition_resolution) :
    listMax (List.zipWith (fun a x => min a (min (termA.mf.eval x) c))
      (buildInputMembership eng v value).2 (buildInputMembership eng v value).1) =
      min (singletonTruth eng v value termA) c := by
  have h1 : (buildInputMembership eng v value).2 ≠ [] := by
    have := buildInputMembership_snd_length eng v value
    intro hnil
    rw [hnil] at this
    simp at this
    omega
  have h2 : (buildInputMembership eng v value).1 ≠ [] := by
    have := buildInputMembership_fst_length eng v value
    intro hnil
    rw [hnil] at this
    simp at this
    omega
  rw [zipWith_min_const, listMax_map_min _ _ (zipWith_ne_nil h1 h2),
    singletonTruth_eq]

/-- C1 (amended): for a single-rule, single-condition engine whose
lookups all resolve and whose rule fires (α ≠ 0), inference_composition
computes the rule's output by clipping/scaling the consequent curve with
the scalar truth level α — combine(α, μ_B(y)) pointwise — rather than by
building the x×y relation.  For max-min composition this clipping
coincides exactly with the spec's full relational composition
B'(y) = max over x of min(A'(x), min(μ_A(x), μ_B(y))); for max-product
composition the output is α·μ_B(y) with α the singleton-intersection
truth (the counterexample shows this differs from the relational
max-product form). -/
theorem C1_composition_is_clipping (vars : List (String × FuzzyVariable))
    (cr res : ℕ) (vn tn ov tB : String) (inputs : List (String × ℚ))
    (value : ℚ) (v outV : FuzzyVariable) (termA termB : FuzzySet)
    (hin : inputs.lookup vn = some value) (hv : vars.lookup vn = some v)
    (hov : vars.lookup ov = some outV) (hta : v.terms.lookup tn = some termA)
    (htb : outV.terms.lookup tB = some termB) (hwfA : termA.mf.wf)
    (hwfB : termB.mf.wf)
    (hne : singletonTruth (mkEngine [⟨[(vn, tn)], ov, tB⟩] vars cr) v value
      termA ≠ 0) :
    inferenceComposition (mkEngine [⟨[(vn, tn)], ov, tB⟩] vars cr) inputs ov
        .max_min .mamdani .maxA res =
      some (specRelationalRuleOutput (mkEngine [⟨[(vn, tn)], ov, tB⟩] vars cr)
          v value termA.mf termB.mf min .mamdani outV res,
        linspace outV.min_val outV.max_val res) ∧
    inferenceComposition (mkEngine [⟨[(vn, tn)], ov, tB⟩] vars cr) inputs ov
        .max_prod .larsen .maxA res =
      some ((linspace outV.min_val outV.max_val res).map
          (fun y => singletonTruth (mkEngine [⟨[(vn, tn)], ov, tB⟩] vars cr) v
            value termA * termB.mf.eval y),
        linspace outV.min_val outV.max_val res) := by
  have hα_eq : evaluateRuleConditions (mkEngine [⟨[(vn, tn)], ov, tB⟩] vars cr)
      ⟨[(vn, tn)], ov, tB⟩ inputs =
      singletonTruth (mkEngine [⟨[(vn, tn)], ov, tB⟩] vars cr) v value termA := by
    simp [evaluateRuleConditions, condTruthList, mkEngine, hin, hv, hta, listMin]
  have hαnn : 0 ≤ singletonTruth (mkEngine [⟨[(vn, tn)], ov, tB⟩] vars cr) v
      value termA :=
    singletonTruth_nonneg _ _ _ _ hwfA
  have hcr : 0 < (mkEngine [⟨[(vn, tn)], ov, tB⟩] vars cr).condition_resolution := by
    simp [mkEngine]
  simp only [mkEngine] at hα_eq hαnn hne hcr
  constructor
  · simp only [inferenceComposition, mkEngine, hov, List.foldl_cons,
      List.foldl_nil, compositionStep, hα_eq, htb, Option.some.injEq]
    rw [if_neg hne]
    rw [if_neg (show ¬(ov ≠ ov) from fun hc => hc rfl)]
    simp only [aggCurve]
    rw [zipWith_max_replicate_zero _ res (by simp [linspace_length])
      (by
        intro q hq
        simp only [List.mem_map] at hq
        obtain ⟨m, ⟨y, _, hy⟩, hm⟩ := hq
        rw [← hm, ← hy]
        exact le_min hαnn (mf_eval_nonneg hwfB y))]
    rw [Prod.mk.injEq]
    refine ⟨?_, rfl⟩
    simp only [specRelationalRuleOutput, implicationOp, List.map_map]
    refine List.map_congr_left ?_
    intro y _
    rw [relational_minmax_point _ _ _ _ _ hcr]
    rfl
  · simp only [inferenceComposition, mkEngine, hov, List.foldl_cons,
      List.foldl_nil, compositionStep, hα_eq, htb, Option.some.injEq]
    rw [if_neg hne]
    rw [if_neg (show ¬(ov ≠ ov) from fun hc => hc rfl)]
    simp only [aggCurve]
    rw [zipWith_max_replicate_zero _ res (by simp [linspace_length])
      (by
        intro q hq
        simp only [List.mem_map] at hq
        obtain ⟨m, ⟨y, _, hy⟩, hm⟩ := hq
        rw [← hm, ← hy]
        exact mul_nonneg hαnn (mf_eval_nonneg hwfB y))]
    rw [Prod.mk.injEq]
    refine ⟨?_, rfl⟩
    rw [List.map_map]
    rfl

set_option maxRecDepth 100000 in
unseal Rat.add Rat.mul Rat.inv Rat.sub in
/-- Counterexample to C1 as stated: for the demonstration engine with
input amount = 9/2 and max-product composition with Larsen implication,
the engine's output differs from the spec's full relational composition
B'(y) = max over x of A'(x)·μ_A(x)·μ_B(y): the engine yields 13/25 at
y = 50 while the relational form yields 39/100. -/
theorem C1_counterexample :
    inferenceComposition demoEngine [("amount", 9/2)] "power" .max_prod .larsen
        .maxA 3 ≠
      some (specRelationalRuleOutput demoEngine amountVar (9/2) (.tri 3 6 6)
          (.tri 0 50 100) (fun a r => a * r) .larsen powerVar 3,
        linspace 0 100 3) := by
  decide

set_option maxRecDepth 100000 in
unseal Rat.add Rat.mul Rat.inv Rat.sub in
/-- Witness for C1 (amended) at the demonstration model with input
amount = 9/2. -/
theorem C1_composition_is_clipping_witness :
    ([(("amount" : String), (9:ℚ)/2)].lookup "amount" = some (9/2) ∧
      amountVar.terms.lookup "high" = some ⟨"high", .tri 3 6 6⟩ ∧
      singletonTruth (mkEngine [⟨[("amount", "high")], "power", "full"⟩]
        [("amount", amountVar), ("power", powerVar)] 51) amountVar (9/2)
        ⟨"high", .tri 3 6 6⟩ ≠ 0) ∧
    inferenceComposition (mkEngine [⟨[("amount", "high")], "power", "full"⟩]
        [("amount", amountVar), ("power", powerVar)] 51) [("amount", 9/2)]
        "power" .max_min .mamdani .maxA 3 =
      some (specRelationalRuleOutput
          (mkEngine [⟨[("amount", "high")], "power", "full"⟩]
            [("amount", amountVar), ("power", powerVar)] 51)
          amountVar (9/2) (MF.tri 3 6 6) (MF.tri 0 50 100) min .mamdani
          powerVar 3,
        linspace powerVar.min_val powerVar.max_val 3) :=
  ⟨⟨by decide, by decide, by decide⟩,
    (C1_composition_is_clipping [("amount", amountVar), ("power", powerVar)]
      51 3 "amount" "high" "power" "full" [("amount", 9/2)] (9/2) amountVar
      powerVar ⟨"high", .tri 3 6 6⟩ ⟨"full", .tri 0 50 100⟩ (by decide)
      (by decide) (by decide) (by decide) (by decide) (by decide) (by decide)
      (by decide)).1⟩

end Fuzzy
